import Mathlib

/-!
Verification of the lemur HSM data mover core (Go sources:
`cmd/lhsm-plugin-az-core/archive.go`, the `Remove` implementation in
`cmd/lhsm-plugin-az-core`, and `cmd/lhsm-plugin-noop/main.go`).

Go strings are modelled as `List Char`; all path separators are the
POSIX `'/'` (the build targets Linux, where `os.PathSeparator = '/'`).
The Go standard library's `path.Clean` and `path.Join` are embedded
below, segment by segment, following the documented lazybuf algorithm.
External effects (filesystem stat, blob store calls) are modelled by an
explicit environment of call outcomes; the archive/remove entry points
return the list of store calls issued together with the Go return value.
-/

namespace Lemur

/-- Split a Go string on `'/'`, keeping empty fields, exactly as
`strings.Split(s, "/")` does (so `splitSlash [] = [[]]`). -/
def splitSlash : List Char → List (List Char)
  | [] => [[]]
  | c :: cs =>
    if c = '/' then [] :: splitSlash cs
    else
      match splitSlash cs with
      | [] => [[c]]
      | s :: ss => (c :: s) :: ss

/-- Join segments with `'/'`, as `strings.Join(l, "/")`. -/
def joinSlash : List (List Char) → List Char
  | [] => []
  | [s] => s
  | s :: rest => s ++ '/' :: joinSlash rest

/-- One step of `path.Clean`'s element processing (the lazybuf loop of
Go's `path.Clean`), acting on the stack of output elements (most recent
first).  Empty and `"."` elements are dropped; `".."` pops a poppable
element, is kept at the front of a relative path, and is dropped at the
root of a rooted path; any other element is pushed. -/
def stepSeg (rooted : Bool) (stack : List (List Char)) (seg : List Char) :
    List (List Char) :=
  if seg = [] ∨ seg = ['.'] then stack
  else if seg = ['.', '.'] then
    match stack with
    | top :: stk =>
      if top = ['.', '.'] then
        if rooted then top :: stk else seg :: top :: stk
      else stk
    | [] => if rooted then [] else [seg]
  else seg :: stack

/-- Process all elements of a path through `stepSeg`. -/
def cleanStack (rooted : Bool) (stack : List (List Char))
    (segs : List (List Char)) : List (List Char) :=
  segs.foldl (stepSeg rooted) stack

/-- The cleaned element list of a path (in path order). -/
def cleanSegs (rooted : Bool) (segs : List (List Char)) : List (List Char) :=
  (cleanStack rooted [] segs).reverse

/-- Go's `path.Clean`: shortest equivalent lexical path.  Returns `"."`
for the empty relative result and `"/"` for the empty rooted result. -/
def pathClean (p : List Char) : List Char :=
  if p = [] then ['.']
  else if p.head? = some '/' then '/' :: joinSlash (cleanSegs true (splitSlash p))
  else if cleanSegs false (splitSlash p) = [] then ['.']
  else joinSlash (cleanSegs false (splitSlash p))

/-- Go's `path.Join`: drop leading empty elements, join the rest with
`'/'` and clean; all-empty input yields the empty string. -/
def pathJoin (elems : List (List Char)) : List Char :=
  match elems.dropWhile (· = []) with
  | [] => []
  | l => pathClean (joinSlash l)

/-- `azblob`'s `appendToURLPath`, used by `NewBlockBlobURL` to append a
blob name to a container URL path (no cleaning, just `"/"` splicing). -/
def appendToURLPath (p name : List Char) : List Char :=
  if p = [] then '/' :: name
  else if p.getLast? = some '/' then p ++ name
  else p ++ '/' :: name

/-- Outcome of a store `GetAccessControl` call: success with the ACL
string, a `StorageError` with service code `BlobNotFound`, or any other
failure. -/
inductive FetchResult where
  | ok (acl : String)
  | notFound
  | failed
deriving DecidableEq

/-- The POSIX stat fields the archiver reads: `Uid`, `Gid`, `Mode()`
(the full `os.FileMode` bits, printed in octal), and the result of
`ModTime().Format("2006-01-02 15:04:05 -0700")` (kept here as the
already formatted string). -/
structure StatInfo where
  uid : Nat
  gid : Nat
  mode : Nat
  modTime : String
deriving DecidableEq

/-- Outcomes of the external calls made while replicating one ancestor
directory: `os.Open`, `Stat`, the HNS `GetAccessControl` pre-fetch, the
placeholder `Upload`, and the HNS `SetAccessControl`. -/
structure DirEnv where
  openOk : Bool
  statOk : Bool
  stat : StatInfo
  aclResult : FetchResult
  uploadOk : Bool
  setAclOk : Bool
deriving DecidableEq

/-- Outcomes of the external calls of the file-upload phase: `os.Open`
and `Stat` of the source file (whose errors the code discards), the
stat fields and `Size()`, the HNS ACL pre-fetch, the block-blob upload,
and the post-upload `SetAccessControl`. -/
structure FileEnv where
  openOk : Bool
  statOk : Bool
  stat : StatInfo
  size : Int
  aclResult : FetchResult
  uploadOk : Bool
  setAclOk : Bool
deriving DecidableEq

/-- Environment of one `Archive` run: per-ancestor call outcomes
(indexed by position in the ancestor list) and the file-phase outcomes. -/
structure ArchiveEnv where
  dirs : Nat → DirEnv
  file : FileEnv

/-- Error values `Archive`/`Remove` can return, tagged by source call.
`dirAcl`/`fileAcl` record whether the underlying storage error carried
service code `BlobNotFound`. -/
inductive Err where
  | dirOpen
  | dirStat
  | dirAcl (notFound : Bool)
  | dirUpload
  | dirSetAcl
  | fileAcl (notFound : Bool)
  | fileUpload
  | fileSetAcl
  | deleteFailed
deriving DecidableEq

/-- `azblob.DeleteSnapshotsOptionType` (`""`, `"include"`, `"only"`). -/
inductive DeleteSnapshotsOption where
  | optNone
  | optInclude
  | optOnly
deriving DecidableEq

/-- Store calls issued by the engine, with the URL path they target.
Uploads, the directory ACL calls and the delete go to the flat blob
endpoint (`<account>.blob.core.windows.net`); `fileGetAcl`/`fileSetAcl`
go to the namespace-aware endpoint (`<account>.dfs.core.windows.net`). -/
inductive Event where
  | dirGetAcl (path : List Char)
  | dirUpload (path : List Char) (meta : List (String × String))
  | dirSetAcl (path : List Char) (acl : String)
  | fileGetAcl (dfsPath : List Char)
  | fileUpload (path : List Char) (meta : List (String × String))
  | fileSetAcl (dfsPath : List Char) (acl : String)
  | deleteBlob (path : List Char) (snapshots : DeleteSnapshotsOption)
deriving DecidableEq

/-- The Go return value `(int64, error)` of `Archive`, plus the runtime
panic that a nil `os.FileInfo` dereference produces. -/
inductive Outcome where
  | ret (total : Int) (err : Option Err)
  | panicked
deriving DecidableEq

/-- `fmt.Sprintf("%o", mode)`. -/
def octalStr (n : Nat) : String := String.mk (Nat.toDigits 8 n)

/-- The four generic metadata pairs built from a stat record, in the
order the code assigns them: `Permissions` (octal mode), `ModTime`
(formatted), `Owner` (decimal UID), `Group` (decimal GID). -/
def fourMeta (st : StatInfo) : List (String × String) :=
  [("Permissions", octalStr st.mode), ("ModTime", st.modTime),
   ("Owner", toString st.uid), ("Group", toString st.gid)]

/-- Metadata attached to a directory placeholder: `hdi_isfolder=true`
always, and the four generic pairs only when HNS is disabled
(`meta["hdi_isfolder"] = "true"; if !o.HNSEnabled { ... }`). -/
def dirMeta (h : Bool) (st : StatInfo) : List (String × String) :=
  ("hdi_isfolder", "true") :: (if h then [] else fourMeta st)

/-- The ancestor-directory replication loop of `Archive` (archive.go).
For each parent segment it extends the URL path with `path.Join`, opens
and stats the corresponding filesystem directory, in HNS mode
pre-fetches the ACL, uploads a zero-byte placeholder with `dirMeta`,
and in HNS mode re-applies the ACL.  Any failed call returns the error
at once.  Note the source's ACL guard
`if stgErr, ok := err.(azblob.StorageError); err != nil || ok && stgErr.ServiceCode() == azblob.ServiceCodeBlobNotFound`
is true exactly when `err != nil` (a nil error never type-asserts, and
the second disjunct implies the first), so a `BlobNotFound` response
aborts like any other error; this embedding reproduces that. -/
def archiveDirs (h : Bool) (envs : Nat → DirEnv) :
    Nat → List Char → List (List Char) → List Event × Option Err
  | _, _, [] => ([], none)
  | i, uPath, d :: rest =>
    let e := envs i
    let uPath' := pathJoin [uPath, d]
    if ¬ e.openOk then ([], some Err.dirOpen)
    else if ¬ e.statOk then ([], some Err.dirStat)
    else if h then
      match e.aclResult with
      | FetchResult.notFound => ([Event.dirGetAcl uPath'], some (Err.dirAcl true))
      | FetchResult.failed => ([Event.dirGetAcl uPath'], some (Err.dirAcl false))
      | FetchResult.ok acl =>
        let evs := [Event.dirGetAcl uPath', Event.dirUpload uPath' (dirMeta h e.stat)]
        if ¬ e.uploadOk then (evs, some Err.dirUpload)
        else if ¬ e.setAclOk then
          (evs ++ [Event.dirSetAcl uPath' acl], some Err.dirSetAcl)
        else
          let r := archiveDirs h envs (i + 1) uPath' rest
          (evs ++ [Event.dirSetAcl uPath' acl] ++ r.1, r.2)
    else
      let evs := [Event.dirUpload uPath' (dirMeta h e.stat)]
      if ¬ e.uploadOk then (evs, some Err.dirUpload)
      else
        let r := archiveDirs h envs (i + 1) uPath' rest
        (evs ++ r.1, r.2)

/-- The file-upload phase of `Archive` (archive.go, after the loop).
`file, _ := os.Open(o.SourcePath); fileInfo, _ := file.Stat()` discard
both errors; when either call fails, `fileInfo` is nil and
`fileInfo.Size()` dereferences a nil interface — a runtime panic, not an
error return.  Otherwise the four generic metadata pairs are attached,
in HNS mode the file ACL is pre-fetched from the dfs endpoint (any
error, not-found included, returns `(0, err)`), the content is uploaded
(failure returns `(0, err)`), and in HNS mode `SetAccessControl` is
re-applied; its failure is only logged, but the shared `err` variable
makes the final `return total, err` carry that error. -/
def archiveFile (h : Bool) (fe : FileEnv) (blobPath dfsPath : List Char) :
    List Event × Outcome :=
  if ¬ fe.openOk ∨ ¬ fe.statOk then ([], Outcome.panicked)
  else
    let meta := fourMeta fe.stat
    if h then
      match fe.aclResult with
      | FetchResult.notFound =>
        ([Event.fileGetAcl dfsPath], Outcome.ret 0 (some (Err.fileAcl true)))
      | FetchResult.failed =>
        ([Event.fileGetAcl dfsPath], Outcome.ret 0 (some (Err.fileAcl false)))
      | FetchResult.ok acl =>
        let evs := [Event.fileGetAcl dfsPath, Event.fileUpload blobPath meta]
        if ¬ fe.uploadOk then (evs, Outcome.ret 0 (some Err.fileUpload))
        else if ¬ fe.setAclOk then
          (evs ++ [Event.fileSetAcl dfsPath acl],
           Outcome.ret fe.size (some Err.fileSetAcl))
        else (evs ++ [Event.fileSetAcl dfsPath acl], Outcome.ret fe.size none)
    else
      let evs := [Event.fileUpload blobPath meta]
      if ¬ fe.uploadOk then (evs, Outcome.ret 0 (some Err.fileUpload))
      else (evs, Outcome.ret fe.size none)

/-- `ArchiveOptions` (archive.go).  `Credential` and `Pacer` are opaque
handles not modelled; `exportPfx` embeds the `ExportPrefix` field —
note the `Archive` function body never reads it. -/
structure ArchiveOptions where
  accountName : List Char
  containerName : List Char
  resourceSAS : List Char
  mountRoot : List Char
  blobName : List Char
  sourcePath : List Char
  parallelism : Nat
  blockSize : Int
  exportPfx : List Char
  hnsEnabled : Bool

/-- URL path of the container URL parsed from
`https://<account>.blob.core.windows.net/<container><SAS>` (the SAS is
a query string, so the path is `"/" ++ container`). -/
def archiveBasePath (o : ArchiveOptions) : List Char := '/' :: o.containerName

/-- `parents := strings.Split(o.BlobName, "/"); parents = parents[:len(parents)-1]`. -/
def archiveParents (o : ArchiveOptions) : List (List Char) :=
  (splitSlash o.blobName).dropLast

/-- URL path of `containerURL.NewBlockBlobURL(o.BlobName)`. -/
def archiveBlobPath (o : ArchiveOptions) : List Char :=
  appendToURLPath (archiveBasePath o) o.blobName

/-- URL path of the dfs endpoint URL
`https://<account>.dfs.core.windows.net/<container>/<blobName><SAS>`. -/
def archiveDfsPath (o : ArchiveOptions) : List Char :=
  '/' :: (o.containerName ++ '/' :: o.blobName)

/-- `Archive` (archive.go): replicate ancestors, then upload the file;
a directory-phase error returns `(0, err)` before the file phase runs. -/
def Archive (o : ArchiveOptions) (env : ArchiveEnv) : List Event × Outcome :=
  let r := archiveDirs o.hnsEnabled env.dirs 0 (archiveBasePath o) (archiveParents o)
  match r.2 with
  | some e => (r.1, Outcome.ret 0 (some e))
  | none =>
    let f := archiveFile o.hnsEnabled env.file (archiveBlobPath o) (archiveDfsPath o)
    (r.1 ++ f.1, f.2)

/-- `RemoveOptions`; `exportPfx` embeds the `ExportPrefix` field. -/
structure RemoveOptions where
  accountName : List Char
  containerName : List Char
  resourceSAS : List Char
  blobName : List Char
  exportPfx : List Char

/-- `blobPath := path.Join(o.ContainerName, o.ExportPrefix, o.BlobName)`. -/
def removeBlobPath (o : RemoveOptions) : List Char :=
  pathJoin [o.containerName, o.exportPfx, o.blobName]

/-- `Remove`: one `Delete` call with `DeleteSnapshotsOptionInclude`
against `https://<account>.blob.core.windows.net/<blobPath><SAS>`,
returning that call's error; `deleteResult` is the store's response. -/
def Remove (o : RemoveOptions) (deleteResult : Option Err) :
    List Event × Option Err :=
  ([Event.deleteBlob ('/' :: removeBlobPath o) DeleteSnapshotsOption.optInclude],
   deleteResult)

/-- The `Mover` of `cmd/lhsm-plugin-noop/main.go`: two fields set at
construction; the source declares no method that writes either field
(its only methods are the two accessors below). -/
structure Mover where
  fsName : String
  archiveID : Nat
deriving DecidableEq

/-- `func (m *Mover) FsName() string { return m.fsName }` -/
def Mover.FsName (m : Mover) : String := m.fsName

/-- `func (m *Mover) ArchiveID() uint32 { return m.archiveID }` -/
def Mover.ArchiveID (m : Mover) : Nat := m.archiveID

/-- `mover := Mover{fsName: "noop", archiveID: uint32(archive)}` in
`noop`; the `uint32` conversion truncates the flag value mod 2^32. -/
def noopMover (archive : Nat) : Mover :=
  { fsName := "noop", archiveID := archive % 2 ^ 32 }

/-! ### Lemmas on path splitting and joining -/

theorem splitSlash_ne_nil (l : List Char) : splitSlash l ≠ [] := by
  induction l with
  | nil => simp [splitSlash]
  | cons c cs ih =>
    simp only [splitSlash]
    split
    · simp
    · cases h : splitSlash cs with
      | nil => simp
      | cons s ss => simp

theorem not_slash_mem_splitSlash :
    ∀ {l : List Char} {s : List Char}, s ∈ splitSlash l → '/' ∉ s := by
  intro l
  induction l with
  | nil =>
    intro s hs
    simp [splitSlash] at hs
    simp [hs]
  | cons c cs ih =>
    intro s hs
    simp only [splitSlash] at hs
    by_cases hc : c = '/'
    · rw [if_pos hc] at hs
      rcases List.mem_cons.mp hs with h | h
      · simp [h]
      · exact ih h
    · rw [if_neg hc] at hs
      cases h : splitSlash cs with
      | nil => exact absurd h (splitSlash_ne_nil cs)
      | cons t ts =>
        rw [h] at hs
        rcases List.mem_cons.mp hs with h1 | h1
        · subst h1
          intro hmem
          rcases List.mem_cons.mp hmem with h2 | h2
          · exact hc h2.symm
          · exact ih (h ▸ List.mem_cons_self t ts) h2
        · exact ih (h ▸ List.mem_cons_of_mem t h1)

theorem splitSlash_of_not_mem {l : List Char} (h : '/' ∉ l) :
    splitSlash l = [l] := by
  induction l with
  | nil => rfl
  | cons c cs ih =>
    have hc : c ≠ '/' := fun hc => h (hc ▸ List.mem_cons_self c cs)
    have hcs : '/' ∉ cs := fun hm => h (List.mem_cons_of_mem c hm)
    simp only [splitSlash, if_neg hc, ih hcs]

theorem splitSlash_append_slash {s : List Char} (hs : '/' ∉ s) (r : List Char) :
    splitSlash (s ++ '/' :: r) = s :: splitSlash r := by
  induction s with
  | nil => simp [splitSlash]
  | cons c cs ih =>
    have hc : c ≠ '/' := fun hc => hs (hc ▸ List.mem_cons_self c cs)
    have hcs : '/' ∉ cs := fun hm => hs (List.mem_cons_of_mem c hm)
    have ih' : splitSlash (cs.append ('/' :: r)) = cs :: splitSlash r := ih hcs
    simp only [List.cons_append, splitSlash, if_neg hc, ih']

theorem length_splitSlash (l : List Char) :
    (splitSlash l).length = l.count '/' + 1 := by
  induction l with
  | nil => simp [splitSlash]
  | cons c cs ih =>
    simp only [splitSlash]
    by_cases hc : c = '/'
    · subst hc
      simp [ih, List.count_cons]
    · rw [if_neg hc]
      cases h : splitSlash cs with
      | nil => exact absurd h (splitSlash_ne_nil cs)
      | cons t ts =>
        rw [h] at ih
        simp only [List.length_cons] at ih ⊢
        simp [List.count_cons, hc, ih]

theorem two_le_length_splitSlash {l : List Char} (h : '/' ∈ l) :
    2 ≤ (splitSlash l).length := by
  rw [length_splitSlash]
  have : 1 ≤ l.count '/' := List.one_le_count_iff.mpr h
  omega

theorem splitSlash_append_cons {s : List Char} (hs : '/' ∉ s) (t : List Char) :
    ∃ L, L ≠ [] ∧ splitSlash (t ++ '/' :: s) = L ++ [s] := by
  induction t with
  | nil =>
    refine ⟨[[]], by simp, ?_⟩
    simp [splitSlash, splitSlash_of_not_mem hs]
  | cons c t' ih =>
    obtain ⟨L, hL, hsplit⟩ := ih
    by_cases hc : c = '/'
    · refine ⟨[] :: L, by simp, ?_⟩
      subst hc
      have hsplit' : splitSlash (t'.append ('/' :: s)) = L ++ [s] := hsplit
      simp only [List.cons_append, splitSlash, if_pos rfl, hsplit', if_true]
    · cases L with
      | nil => exact absurd rfl hL
      | cons l0 L' =>
        refine ⟨(c :: l0) :: L', by simp, ?_⟩
        have hsplit' : splitSlash (t'.append ('/' :: s)) = l0 :: (L' ++ [s]) := hsplit
        simp only [List.cons_append, splitSlash, if_neg hc, hsplit']

theorem joinSlash_append {L : List (List Char)} (hL : L ≠ []) (x : List Char) :
    joinSlash (L ++ [x]) = joinSlash L ++ '/' :: x := by
  induction L with
  | nil => exact absurd rfl hL
  | cons s rest ih =>
    cases rest with
    | nil => simp [joinSlash]
    | cons t ts =>
      have h1 : joinSlash ((s :: t :: ts) ++ [x]) =
          s ++ '/' :: joinSlash ((t :: ts) ++ [x]) := rfl
      have h2 : joinSlash (s :: t :: ts) = s ++ '/' :: joinSlash (t :: ts) := rfl
      rw [h1, h2, ih (by simp)]
      simp

theorem splitSlash_joinSlash :
    ∀ {L : List (List Char)}, L ≠ [] → (∀ x ∈ L, '/' ∉ x) →
      splitSlash (joinSlash L) = L := by
  intro L
  induction L with
  | nil => intro h; exact absurd rfl h
  | cons x rest ih =>
    intro _ hmem
    cases rest with
    | nil => simpa [joinSlash] using splitSlash_of_not_mem (hmem x (by simp))
    | cons y ys =>
      have hx : '/' ∉ x := hmem x (by simp)
      have : joinSlash (x :: y :: ys) = x ++ '/' :: joinSlash (y :: ys) := rfl
      rw [this, splitSlash_append_slash hx,
        ih (by simp) (fun z hz => hmem z (List.mem_cons_of_mem x hz))]

theorem joinSlash_ne_nil :
    ∀ {L : List (List Char)}, L ≠ [] → (∀ x ∈ L, x ≠ []) → joinSlash L ≠ [] := by
  intro L hL hmem
  cases L with
  | nil => exact absurd rfl hL
  | cons x rest =>
    cases rest with
    | nil => simpa [joinSlash] using hmem x (by simp)
    | cons y ys =>
      have : joinSlash (x :: y :: ys) = x ++ '/' :: joinSlash (y :: ys) := rfl
      rw [this]
      simp

theorem head?_joinSlash (x : List Char) (hx : x ≠ []) (rest : List (List Char)) :
    (joinSlash (x :: rest)).head? = x.head? := by
  cases rest with
  | nil => rfl
  | cons y ys =>
    have : joinSlash (x :: y :: ys) = x ++ '/' :: joinSlash (y :: ys) := rfl
    rw [this]
    cases x with
    | nil => exact absurd rfl hx
    | cons c cs => rfl

/-! ### Lemmas on `path.Clean`'s element processing -/

/-- A path element that `path.Clean` passes through unchanged: nonempty,
not `"."`, not `".."`, and slash-free. -/
def NormalSeg (s : List Char) : Prop :=
  s ≠ [] ∧ s ≠ ['.'] ∧ s ≠ ['.', '.'] ∧ '/' ∉ s

instance : DecidablePred NormalSeg := fun s => by
  unfold NormalSeg
  infer_instance

theorem stepSeg_nil (rooted : Bool) (stack : List (List Char)) :
    stepSeg rooted stack [] = stack := by
  simp [stepSeg]

theorem stepSeg_normal (rooted : Bool) (stack : List (List Char)) {s : List Char}
    (hs : NormalSeg s) : stepSeg rooted stack s = s :: stack := by
  obtain ⟨h1, h2, h3, _⟩ := hs
  simp [stepSeg, h1, h2, h3]

theorem cleanStack_append (rooted : Bool) (stack : List (List Char))
    (l1 l2 : List (List Char)) :
    cleanStack rooted stack (l1 ++ l2) =
      cleanStack rooted (cleanStack rooted stack l1) l2 :=
  List.foldl_append _ _ _ _

theorem cleanStack_normal {l : List (List Char)} (h : ∀ s ∈ l, NormalSeg s)
    (rooted : Bool) :
    ∀ stack, cleanStack rooted stack l = l.reverse ++ stack := by
  induction l with
  | nil => intro stack; rfl
  | cons s r ih =>
    intro stack
    have hstep : cleanStack rooted stack (s :: r) =
        cleanStack rooted (stepSeg rooted stack s) r := rfl
    rw [hstep, stepSeg_normal rooted stack (h s (by simp)),
      ih (fun x hx => h x (List.mem_cons_of_mem s hx))]
    simp

theorem cleanStack_dots {l : List (List Char)} (hl : ∀ x ∈ l, x = ['.', '.']) :
    ∀ stack, (∀ x ∈ stack, x = ['.', '.']) →
      cleanStack false stack l = l.reverse ++ stack := by
  induction l with
  | nil => intro stack _; rfl
  | cons s r ih =>
    intro stack hstack
    have hs : s = ['.', '.'] := hl s (by simp)
    have hstep : cleanStack false stack (s :: r) =
        cleanStack false (stepSeg false stack s) r := rfl
    have hpush : stepSeg false stack s = s :: stack := by
      subst hs
      cases stack with
      | nil => rfl
      | cons top stk =>
        have htop : top = ['.', '.'] := hstack top (by simp)
        simp [stepSeg, htop]
    rw [hstep, hpush,
      ih (fun x hx => hl x (List.mem_cons_of_mem s hx)) (s :: stack)
        (fun x hx => by
          rcases List.mem_cons.mp hx with h1 | h1
          · exact h1 ▸ hs
          · exact hstack x h1)]
    simp

/-- Invariant of the output stack of `path.Clean`'s loop: possibly-
poppable normal elements on top of retained `".."` elements, the latter
only in relative paths. -/
def GoodStack (rooted : Bool) (stack : List (List Char)) : Prop :=
  ∃ a b, stack = a ++ b ∧ (∀ x ∈ a, NormalSeg x) ∧
    (∀ x ∈ b, x = ['.', '.']) ∧ (rooted = true → b = [])

theorem goodStack_nil (rooted : Bool) : GoodStack rooted [] :=
  ⟨[], [], rfl, by simp, by simp, fun _ => rfl⟩

theorem stepSeg_skip {rooted : Bool} (stack : List (List Char)) {s : List Char}
    (h : s = [] ∨ s = ['.']) : stepSeg rooted stack s = stack := by
  unfold stepSeg
  rw [if_pos h]

theorem stepSeg_dd_nil (rooted : Bool) :
    stepSeg rooted [] ['.', '.'] = if rooted then [] else [['.', '.']] := rfl

theorem stepSeg_dd_cons (rooted : Bool) (top : List Char)
    (stk : List (List Char)) :
    stepSeg rooted (top :: stk) ['.', '.'] =
      if top = ['.', '.'] then
        (if rooted then top :: stk else ['.', '.'] :: top :: stk)
      else stk := rfl

theorem stepSeg_push {rooted : Bool} (stack : List (List Char)) {s : List Char}
    (h1 : ¬(s = [] ∨ s = ['.'])) (h2 : s ≠ ['.', '.']) :
    stepSeg rooted stack s = s :: stack := by
  unfold stepSeg
  rw [if_neg h1, if_neg h2]

theorem stepSeg_good {rooted : Bool} {stack : List (List Char)}
    (h : GoodStack rooted stack) {s : List Char} (hs : '/' ∉ s) :
    GoodStack rooted (stepSeg rooted stack s) := by
  obtain ⟨a, b, hst, ha, hb, hr⟩ := h
  by_cases h1 : s = [] ∨ s = ['.']
  · rw [stepSeg_skip stack h1]
    exact ⟨a, b, hst, ha, hb, hr⟩
  · by_cases h2 : s = ['.', '.']
    · subst h2
      have hallb : a = [] → ∀ x ∈ stack, x = ['.', '.'] := by
        intro hanil x hx
        exact hb x (by rwa [hst, hanil, List.nil_append] at hx)
      cases hstack : stack with
      | nil =>
        rw [stepSeg_dd_nil]
        cases rooted with
        | false =>
          rw [if_neg Bool.false_ne_true]
          exact ⟨[], [['.', '.']], rfl, by simp, by simp, by simp⟩
        | true =>
          rw [if_pos rfl]
          exact ⟨[], [], rfl, by simp, by simp, fun _ => rfl⟩
      | cons top stk =>
        rw [stepSeg_dd_cons]
        by_cases htop : top = ['.', '.']
        · have hanil : a = [] := by
            cases a with
            | nil => rfl
            | cons a0 a' =>
              have ha0 : a0 = top := by
                rw [hstack] at hst
                exact (List.cons.injEq _ _ _ _ ▸ hst).1.symm
              have hn : NormalSeg a0 := ha a0 (by simp)
              exact absurd (ha0 ▸ htop) hn.2.2.1
          have hstk : ∀ x ∈ top :: stk, x = ['.', '.'] := by
            intro x hx
            exact hallb hanil x (hstack ▸ hx)
          cases rooted with
          | true =>
            have hbnil : b = [] := hr rfl
            rw [hst, hanil, hbnil] at hstack
            simp at hstack
          | false =>
            rw [if_pos htop, if_neg Bool.false_ne_true]
            refine ⟨[], ['.', '.'] :: top :: stk, rfl, by simp, ?_, by simp⟩
            intro x hx
            rcases List.mem_cons.mp hx with h3 | h3
            · exact h3
            · exact hstk x h3
        · rw [if_neg htop]
          cases a with
          | nil =>
            have : top = ['.', '.'] := by
              apply hb
              rw [hst, List.nil_append] at hstack
              rw [hstack]
              simp
            exact absurd this htop
          | cons a0 a' =>
            rw [hstack] at hst
            have heq := List.cons.injEq _ _ _ _ ▸ hst
            exact ⟨a', b, heq.2, fun x hx => ha x (List.mem_cons_of_mem a0 hx),
              hb, hr⟩
    · rw [stepSeg_push stack h1 h2]
      push_neg at h1
      exact ⟨s :: a, b, by rw [hst, List.cons_append],
        fun x hx => by
          rcases List.mem_cons.mp hx with h3 | h3
          · exact h3 ▸ ⟨h1.1, h1.2, h2, hs⟩
          · exact ha x h3,
        hb, hr⟩

theorem cleanStack_good {l : List (List Char)} (h : ∀ s ∈ l, '/' ∉ s)
    {rooted : Bool} :
    ∀ {stack}, GoodStack rooted stack → GoodStack rooted (cleanStack rooted stack l) := by
  induction l with
  | nil => intro stack hst; exact hst
  | cons s r ih =>
    intro stack hst
    have hstep : cleanStack rooted stack (s :: r) =
        cleanStack rooted (stepSeg rooted stack s) r := rfl
    rw [hstep]
    exact ih (fun x hx => h x (List.mem_cons_of_mem s hx))
      (stepSeg_good hst (h s (by simp)))

/-- Shape of `cleanSegs` output: retained `".."` elements (relative
paths only) followed by normal elements. -/
def GoodOut (rooted : Bool) (l : List (List Char)) : Prop :=
  ∃ d r, l = d ++ r ∧ (∀ x ∈ d, x = ['.', '.']) ∧ (∀ x ∈ r, NormalSeg x) ∧
    (rooted = true → d = [])

theorem goodOut_cleanSegs {l : List (List Char)} (h : ∀ s ∈ l, '/' ∉ s)
    (rooted : Bool) : GoodOut rooted (cleanSegs rooted l) := by
  obtain ⟨a, b, hst, ha, hb, hr⟩ := cleanStack_good h (goodStack_nil rooted)
  refine ⟨b.reverse, a.reverse, ?_, ?_, ?_, ?_⟩
  · rw [cleanSegs, hst, List.reverse_append]
  · intro x hx; exact hb x (List.mem_reverse.mp hx)
  · intro x hx; exact ha x (List.mem_reverse.mp hx)
  · intro hro; rw [hr hro]; rfl

theorem cleanSegs_goodOut {rooted : Bool} {out : List (List Char)}
    (h : GoodOut rooted out) : cleanSegs rooted out = out := by
  obtain ⟨d, r, hout, hd, hn, hro⟩ := h
  cases rooted with
  | true =>
    have hdnil : d = [] := hro rfl
    rw [hout, hdnil, List.nil_append] at *
    rw [cleanSegs, cleanStack_normal hn true [], List.append_nil,
      List.reverse_reverse]
  | false =>
    rw [hout, cleanSegs, cleanStack_append, cleanStack_dots hd [] (by simp),
      List.append_nil, cleanStack_normal hn false, List.reverse_append,
      List.reverse_reverse, List.reverse_reverse]

theorem goodOut_elems {rooted : Bool} {out : List (List Char)}
    (h : GoodOut rooted out) : ∀ x ∈ out, x ≠ [] ∧ '/' ∉ x := by
  obtain ⟨d, r, hout, hd, hn, _⟩ := h
  intro x hx
  rw [hout] at hx
  rcases List.mem_append.mp hx with h1 | h1
  · rw [hd x h1]
    refine ⟨by simp, by simp⟩
  · exact ⟨(hn x h1).1, (hn x h1).2.2.2⟩

/-! ### `path.Clean` is a projection and `path.Join` is idempotent -/

theorem pathClean_of_rooted {p : List Char} (hp : p.head? = some '/') :
    pathClean p = '/' :: joinSlash (cleanSegs true (splitSlash p)) := by
  have hne : p ≠ [] := by
    intro h
    rw [h] at hp
    simp at hp
  unfold pathClean
  rw [if_neg hne, if_pos hp]

theorem pathClean_of_not_rooted {p : List Char} (hne : p ≠ [])
    (hp : ¬ p.head? = some '/') :
    pathClean p = if cleanSegs false (splitSlash p) = [] then ['.']
      else joinSlash (cleanSegs false (splitSlash p)) := by
  unfold pathClean
  rw [if_neg hne, if_neg hp]

theorem cleanSegs_nil_cons_normal {out : List (List Char)}
    (h : ∀ x ∈ out, NormalSeg x) : cleanSegs true ([] :: out) = out := by
  have h1 : cleanStack true [] ([] :: out) =
      cleanStack true (stepSeg true [] []) out := rfl
  rw [cleanSegs, h1, stepSeg_nil, cleanStack_normal h true [], List.append_nil,
    List.reverse_reverse]

theorem splitSlash_cons_slash (t : List Char) :
    splitSlash ('/' :: t) = [] :: splitSlash t := by
  simp [splitSlash]

theorem pathClean_fix (p : List Char) : pathClean (pathClean p) = pathClean p := by
  by_cases hp : p = []
  · subst hp
    rfl
  · by_cases hr : p.head? = some '/'
    · rw [pathClean_of_rooted hr]
      have hgood : GoodOut true (cleanSegs true (splitSlash p)) :=
        goodOut_cleanSegs (fun s hs => not_slash_mem_splitSlash hs) true
      have hnorm : ∀ x ∈ cleanSegs true (splitSlash p), NormalSeg x := by
        obtain ⟨d, r, hout, _, hn, hro⟩ := hgood
        intro x hx
        rw [hout, hro rfl, List.nil_append] at hx
        exact hn x hx
      by_cases houtnil : cleanSegs true (splitSlash p) = []
      · rw [houtnil]
        rfl
      · rw [pathClean_of_rooted (show ('/' ::
            joinSlash (cleanSegs true (splitSlash p))).head? = some '/' from rfl),
          splitSlash_cons_slash,
          splitSlash_joinSlash houtnil (fun x hx => (hnorm x hx).2.2.2),
          cleanSegs_nil_cons_normal hnorm]
    · rw [pathClean_of_not_rooted hp hr]
      by_cases houtnil : cleanSegs false (splitSlash p) = []
      · rw [if_pos houtnil]
        rfl
      · rw [if_neg houtnil]
        have hgood : GoodOut false (cleanSegs false (splitSlash p)) :=
          goodOut_cleanSegs (fun s hs => not_slash_mem_splitSlash hs) false
        have helems := goodOut_elems hgood
        have hqne : joinSlash (cleanSegs false (splitSlash p)) ≠ [] :=
          joinSlash_ne_nil houtnil (fun x hx => (helems x hx).1)
        have hqr : ¬ (joinSlash (cleanSegs false (splitSlash p))).head? = some '/' := by
          cases hout : cleanSegs false (splitSlash p) with
          | nil => exact absurd hout houtnil
          | cons x xs =>
            have hx : x ≠ [] ∧ '/' ∉ x := helems x (by rw [hout]; simp)
            rw [head?_joinSlash x hx.1 xs]
            intro hhd
            cases x with
            | nil => simp at hhd
            | cons c cs =>
              simp only [List.head?_cons, Option.some.injEq] at hhd
              exact hx.2 (by rw [hhd]; simp)
        rw [pathClean_of_not_rooted hqne hqr,
          splitSlash_joinSlash houtnil (fun x hx => (helems x hx).2),
          cleanSegs_goodOut hgood, if_neg houtnil]

theorem pathClean_ne_nil (p : List Char) : pathClean p ≠ [] := by
  by_cases hp : p = []
  · subst hp
    simp [pathClean]
  · by_cases hr : p.head? = some '/'
    · rw [pathClean_of_rooted hr]
      simp
    · rw [pathClean_of_not_rooted hp hr]
      by_cases houtnil : cleanSegs false (splitSlash p) = []
      · rw [if_pos houtnil]
        simp
      · rw [if_neg houtnil]
        exact joinSlash_ne_nil houtnil
          (fun x hx => (goodOut_elems
            (goodOut_cleanSegs (fun s hs => not_slash_mem_splitSlash hs) false)
            x hx).1)

theorem pathJoin_single {q : List Char} (h : q ≠ []) :
    pathJoin [q] = pathClean q := by
  unfold pathJoin
  have hdw : [q].dropWhile (· = []) = [q] := by
    rw [List.dropWhile_cons]
    simp [h]
  rw [hdw]
  rfl

/-! ### Cumulative `path.Join` of normal segments extends by one segment -/

/-- A rooted path in `path.Clean` normal form with at least one element. -/
def RootedClean (p : List Char) : Prop :=
  ∃ out, out ≠ [] ∧ (∀ x ∈ out, NormalSeg x) ∧ p = '/' :: joinSlash out

theorem pathJoin_pair {b : List Char} (s : List Char) (hb : b ≠ []) :
    pathJoin [b, s] = pathClean (b ++ '/' :: s) := by
  unfold pathJoin
  have hdw : [b, s].dropWhile (· = []) = [b, s] := by
    rw [List.dropWhile_cons]
    simp [hb]
  rw [hdw]
  rfl

theorem pathJoin_base {c s : List Char} (hs : NormalSeg s) :
    RootedClean (pathJoin ['/' :: c, s]) := by
  rw [pathJoin_pair s (by simp)]
  have hhd : (('/' :: c) ++ '/' :: s).head? = some '/' := by simp
  rw [pathClean_of_rooted hhd]
  have hgood := goodOut_cleanSegs
    (fun x hx => not_slash_mem_splitSlash (l := ('/' :: c) ++ '/' :: s) hx) true
  have hnorm : ∀ x ∈ cleanSegs true (splitSlash (('/' :: c) ++ '/' :: s)),
      NormalSeg x := by
    obtain ⟨d, r, hout, _, hn, hro⟩ := hgood
    intro x hx
    rw [hout, hro rfl, List.nil_append] at hx
    exact hn x hx
  obtain ⟨L, hL, hsplit⟩ := splitSlash_append_cons hs.2.2.2 ('/' :: c)
  have hne : cleanSegs true (splitSlash (('/' :: c) ++ '/' :: s)) ≠ [] := by
    rw [cleanSegs, hsplit, cleanStack_append]
    have h1 : cleanStack true (cleanStack true [] L) [s] =
        stepSeg true (cleanStack true [] L) s := rfl
    rw [h1, stepSeg_normal true _ hs]
    simp
  exact ⟨cleanSegs true (splitSlash (('/' :: c) ++ '/' :: s)), hne, hnorm, rfl⟩

theorem pathJoin_extend {p : List Char} (hp : RootedClean p) {s : List Char}
    (hs : NormalSeg s) :
    pathJoin [p, s] = p ++ '/' :: s ∧ RootedClean (p ++ '/' :: s) := by
  obtain ⟨out, hne, hnorm, hpe⟩ := hp
  have hpne : p ≠ [] := by rw [hpe]; simp
  have hmemapp : ∀ x ∈ out ++ [s], NormalSeg x := by
    intro x hx
    rcases List.mem_append.mp hx with h1 | h1
    · exact hnorm x h1
    · rw [List.mem_singleton.mp h1]
      exact hs
  have hsplit : splitSlash (p ++ '/' :: s) = [] :: (out ++ [s]) := by
    have hjs : joinSlash out ++ '/' :: s = joinSlash (out ++ [s]) :=
      (joinSlash_append hne s).symm
    rw [hpe, List.cons_append, splitSlash_cons_slash, hjs,
      splitSlash_joinSlash (by simp) (fun x hx => (hmemapp x hx).2.2.2)]
  have key : pathJoin [p, s] = p ++ '/' :: s := by
    rw [pathJoin_pair s hpne]
    have hhd : (p ++ '/' :: s).head? = some '/' := by
      rw [hpe, List.cons_append]
      rfl
    rw [pathClean_of_rooted hhd, hsplit, cleanSegs_nil_cons_normal hmemapp,
      joinSlash_append hne s, hpe, List.cons_append]
  refine ⟨key, out ++ [s], by simp, hmemapp, ?_⟩
  rw [hpe, joinSlash_append hne s, List.cons_append]

/-- The successive URL paths built by the directory-replication loop:
`u.Path = path.Join(u.Path, currDir)` starting from `base`. -/
def dirPaths (base : List Char) : List (List Char) → List (List Char)
  | [] => []
  | d :: rest => pathJoin [base, d] :: dirPaths (pathJoin [base, d]) rest

theorem dirPaths_length (base : List Char) (ds : List (List Char)) :
    (dirPaths base ds).length = ds.length := by
  induction ds generalizing base with
  | nil => rfl
  | cons d rest ih => simp [dirPaths, ih]

theorem chain_dirPaths_aux :
    ∀ {ds : List (List Char)}, (∀ s ∈ ds, NormalSeg s) →
      ∀ {b}, RootedClean b →
        List.Chain' (fun x y => x <+: y ∧ x ≠ y) (b :: dirPaths b ds) := by
  intro ds
  induction ds with
  | nil =>
    intro _ b _
    simp [dirPaths]
  | cons d rest ih =>
    intro hds b hb
    obtain ⟨hjoin, hrc⟩ := pathJoin_extend hb (hds d (by simp))
    show List.Chain' _ (b :: pathJoin [b, d] :: dirPaths (pathJoin [b, d]) rest)
    rw [List.chain'_cons, hjoin]
    constructor
    · refine ⟨List.prefix_append _ _, ?_⟩
      intro hcontra
      have := congrArg List.length hcontra
      simp at this
    · exact ih (fun x hx => hds x (List.mem_cons_of_mem d hx)) hrc

theorem chain_dirPaths {c : List Char} {ds : List (List Char)}
    (hds : ∀ s ∈ ds, NormalSeg s) :
    List.Chain' (fun x y => x <+: y ∧ x ≠ y) (dirPaths ('/' :: c) ds) := by
  cases ds with
  | nil => simp [dirPaths]
  | cons d rest =>
    have hrc : RootedClean (pathJoin ['/' :: c, d]) := pathJoin_base (hds d (by simp))
    have hchain := chain_dirPaths_aux
      (fun x hx => hds x (List.mem_cons_of_mem d hx)) hrc
    show List.Chain' _
      (pathJoin ['/' :: c, d] :: dirPaths (pathJoin ['/' :: c, d]) rest)
    exact hchain

/-! ### Events issued by the archive phases -/

/-- Select the target path of a directory-placeholder upload. -/
def dirUploadPathOf : Event → Option (List Char)
  | Event.dirUpload p _ => some p
  | _ => none

/-- Paths of the placeholder uploads among a list of events, in order. -/
def dirUploadPaths (evs : List Event) : List (List Char) :=
  evs.filterMap dirUploadPathOf

/-- Select the target path of any upload (placeholder or file content). -/
def uploadPathOf : Event → Option (List Char)
  | Event.dirUpload p _ => some p
  | Event.fileUpload p _ => some p
  | _ => none

/-- Paths of all uploads among a list of events, in order. -/
def uploadPaths (evs : List Event) : List (List Char) :=
  evs.filterMap uploadPathOf

/-- Whether a `GetAccessControl` outcome is a success. -/
def FetchResult.isOk : FetchResult → Bool
  | FetchResult.ok _ => true
  | _ => false

/-- Every external call of one directory-replication step succeeds. -/
def DirEnv.allOk (e : DirEnv) : Prop :=
  e.openOk = true ∧ e.statOk = true ∧ e.aclResult.isOk = true ∧
    e.uploadOk = true ∧ e.setAclOk = true

instance (e : DirEnv) : Decidable e.allOk := by
  unfold DirEnv.allOk
  infer_instance

theorem archiveDirs_ok {h : Bool} {envs : Nat → DirEnv} :
    ∀ {ds : List (List Char)}, ∀ (i : Nat) (uPath : List Char),
      (∀ j, j < ds.length → (envs (i + j)).allOk) →
      dirUploadPaths (archiveDirs h envs i uPath ds).1 = dirPaths uPath ds ∧
        (archiveDirs h envs i uPath ds).2 = none := by
  intro ds
  induction ds with
  | nil =>
    intro i uPath _
    exact ⟨rfl, rfl⟩
  | cons d rest ih =>
    intro i uPath hok
    obtain ⟨ho, hs, hacl, hu, hsa⟩ := hok 0 (by simp)
    rw [Nat.add_zero] at ho hs hacl hu hsa
    have hoknext : ∀ j, j < rest.length → (envs (i + 1 + j)).allOk := by
      intro j hj
      have hneed := hok (j + 1) (by simpa using Nat.succ_lt_succ hj)
      rwa [show i + (j + 1) = i + 1 + j by omega] at hneed
    obtain ⟨ih1, ih2⟩ := ih (i + 1) (pathJoin [uPath, d]) hoknext
    simp only [dirUploadPaths] at ih1
    cases hac : (envs i).aclResult with
    | notFound =>
      rw [hac] at hacl
      simp [FetchResult.isOk] at hacl
    | failed =>
      rw [hac] at hacl
      simp [FetchResult.isOk] at hacl
    | ok acl =>
      cases h with
      | true =>
        simp only [archiveDirs, ho, hs, hac, hu, hsa, dirPaths]
        simp [dirUploadPaths, dirUploadPathOf, List.filterMap_cons, ih1, ih2]
      | false =>
        simp only [archiveDirs, ho, hs, hac, hu, hsa, dirPaths]
        simp [dirUploadPaths, dirUploadPathOf, List.filterMap_cons, ih1, ih2]

theorem archiveDirs_no_fileUpload {h : Bool} {envs : Nat → DirEnv} :
    ∀ {ds : List (List Char)} {i : Nat} {uPath : List Char} {p : List Char}
      {m : List (String × String)},
      Event.fileUpload p m ∉ (archiveDirs h envs i uPath ds).1 := by
  intro ds
  induction ds with
  | nil =>
    intro i uPath p m
    simp [archiveDirs]
  | cons d rest ih =>
    intro i uPath p m
    simp only [archiveDirs]
    split
    · simp
    · split
      · simp
      · split
        · split
          · simp
          · simp
          · split
            · simp
            · split
              · simp
              · simp only [List.append_assoc, List.mem_append, List.mem_cons,
                  List.mem_singleton]
                intro hmem
                rcases hmem with h1 | h1
                · rcases h1 with h2 | h2 <;> simp_all
                · rcases h1 with h2 | h2
                  · simp_all
                  · exact ih h2
        · split
          · simp
          · simp only [List.mem_append, List.mem_cons, List.mem_singleton]
            intro hmem
            rcases hmem with h1 | h1
            · simp_all
            · exact ih h1

theorem archiveDirs_no_deleteBlob {h : Bool} {envs : Nat → DirEnv} :
    ∀ {ds : List (List Char)} {i : Nat} {uPath : List Char} {p : List Char}
      {snaps : DeleteSnapshotsOption},
      Event.deleteBlob p snaps ∉ (archiveDirs h envs i uPath ds).1 := by
  intro ds
  induction ds with
  | nil =>
    intro i uPath p snaps
    simp [archiveDirs]
  | cons d rest ih =>
    intro i uPath p snaps
    simp only [archiveDirs]
    split
    · simp
    · split
      · simp
      · split
        · split
          · simp
          · simp
          · split
            · simp
            · split
              · simp
              · simp only [List.append_assoc, List.mem_append, List.mem_cons,
                  List.mem_singleton]
                intro hmem
                rcases hmem with h1 | h1
                · rcases h1 with h2 | h2 <;> simp_all
                · rcases h1 with h2 | h2
                  · simp_all
                  · exact ih h2
        · split
          · simp
          · simp only [List.mem_append, List.mem_cons, List.mem_singleton]
            intro hmem
            rcases hmem with h1 | h1
            · simp_all
            · exact ih h1

theorem dirMeta_true (st : StatInfo) :
    dirMeta true st = [("hdi_isfolder", "true")] := rfl

theorem archiveDirs_dirUpload_meta {h : Bool} {envs : Nat → DirEnv} :
    ∀ {ds : List (List Char)} {i : Nat} {uPath : List Char} {p : List Char}
      {m : List (String × String)},
      Event.dirUpload p m ∈ (archiveDirs h envs i uPath ds).1 →
      ∃ j, m = dirMeta h (envs j).stat := by
  intro ds
  induction ds with
  | nil =>
    intro i uPath p m hm
    simp [archiveDirs] at hm
  | cons d rest ih =>
    intro i uPath p m
    simp only [archiveDirs]
    split
    · simp
    · split
      · simp
      · split
        · split
          · simp
          · simp
          · split
            · intro hmem
              simp at hmem
              exact ⟨i, hmem.2⟩
            · split
              · intro hmem
                simp at hmem
                exact ⟨i, hmem.2⟩
              · intro hmem
                simp at hmem
                rcases hmem with h1 | h1
                · exact ⟨i, h1.2⟩
                · exact ih h1
        · split
          · intro hmem
            simp at hmem
            exact ⟨i, hmem.2⟩
          · intro hmem
            simp at hmem
            rcases hmem with h1 | h1
            · exact ⟨i, h1.2⟩
            · exact ih h1

theorem archiveFile_fileUpload_meta {h : Bool} {fe : FileEnv}
    {bp dp : List Char} {p : List Char} {m : List (String × String)} :
    Event.fileUpload p m ∈ (archiveFile h fe bp dp).1 →
    m = fourMeta fe.stat := by
  unfold archiveFile
  split
  · simp
  · split
    · split
      · simp
      · simp
      · split
        · intro hmem
          simp at hmem
          exact hmem.2
        · split
          · intro hmem
            simp at hmem
            exact hmem.2
          · intro hmem
            simp at hmem
            exact hmem.2
    · split
      · intro hmem
        simp at hmem
        exact hmem.2
      · intro hmem
        simp at hmem
        exact hmem.2

theorem archiveFile_no_dirUpload {h : Bool} {fe : FileEnv} {bp dp : List Char}
    {p : List Char} {m : List (String × String)} :
    Event.dirUpload p m ∉ (archiveFile h fe bp dp).1 := by
  unfold archiveFile
  split
  · simp
  · split
    · split
      · simp
      · simp
      · split
        · simp
        · split <;> simp
    · split <;> simp

theorem archiveFile_panicked {h : Bool} {fe : FileEnv} {bp dp : List Char}
    (hf : fe.openOk = false ∨ fe.statOk = false) :
    archiveFile h fe bp dp = ([], Outcome.panicked) := by
  unfold archiveFile
  rcases hf with hf | hf
  · rw [if_pos (Or.inl (by simp [hf]))]
  · rw [if_pos (Or.inr (by simp [hf]))]

theorem Archive_dirErr {o : ArchiveOptions} {env : ArchiveEnv} {e : Err}
    (hd : (archiveDirs o.hnsEnabled env.dirs 0 (archiveBasePath o)
      (archiveParents o)).2 = some e) :
    Archive o env = ((archiveDirs o.hnsEnabled env.dirs 0 (archiveBasePath o)
      (archiveParents o)).1, Outcome.ret 0 (some e)) := by
  simp only [Archive]
  rw [hd]

theorem Archive_dirOk {o : ArchiveOptions} {env : ArchiveEnv}
    (hd : (archiveDirs o.hnsEnabled env.dirs 0 (archiveBasePath o)
      (archiveParents o)).2 = none) :
    Archive o env = ((archiveDirs o.hnsEnabled env.dirs 0 (archiveBasePath o)
      (archiveParents o)).1 ++
        (archiveFile o.hnsEnabled env.file (archiveBlobPath o)
          (archiveDfsPath o)).1,
      (archiveFile o.hnsEnabled env.file (archiveBlobPath o)
        (archiveDfsPath o)).2) := by
  simp only [Archive]
  rw [hd]

theorem dirUploadPaths_archiveFile (h : Bool) (fe : FileEnv) (bp dp : List Char) :
    dirUploadPaths (archiveFile h fe bp dp).1 = [] := by
  unfold archiveFile
  split
  · rfl
  · split
    · split
      · rfl
      · rfl
      · split
        · rfl
        · split
          · rfl
          · rfl
    · split
      · rfl
      · rfl

/-! ### Concrete fixtures (the spec scenario of section 8) -/

/-- Stat fields used by the concrete runs below (mode 0644 = 420). -/
def stFix : StatInfo :=
  { uid := 1000, gid := 1001, mode := 420,
    modTime := "2024-01-02 03:04:05 +0000" }

/-- A directory-replication step in which every call succeeds. -/
def dirOk : DirEnv :=
  { openOk := true, statOk := true, stat := stFix,
    aclResult := FetchResult.ok "user::rwx", uploadOk := true,
    setAclOk := true }

/-- A file phase in which every call succeeds; the source file has
5 bytes. -/
def fileOk : FileEnv :=
  { openOk := true, statOk := true, stat := stFix, size := 5,
    aclResult := FetchResult.ok "user::rwx", uploadOk := true,
    setAclOk := true }

/-- Environment in which every external call succeeds. -/
def envOk : ArchiveEnv := { dirs := fun _ => dirOk, file := fileOk }

/-- The spec scenario: container `cont`, export prefix `export1`, mount
root `/mnt/fs`, object name `a/b/file.txt`, flat namespace. -/
def oScenario : ArchiveOptions :=
  { accountName := "acct".data, containerName := "cont".data,
    resourceSAS := [], mountRoot := "/mnt/fs".data,
    blobName := "a/b/file.txt".data,
    sourcePath := "/mnt/fs/a/b/file.txt".data, parallelism := 4,
    blockSize := 8, exportPfx := "export1".data, hnsEnabled := false }

/-- The same scenario for `Remove`. -/
def rScenario : RemoveOptions :=
  { accountName := "acct".data, containerName := "cont".data,
    resourceSAS := [], blobName := "a/b/file.txt".data,
    exportPfx := "export1".data }

/-- The spec scenario with hierarchical namespace enabled. -/
def oScenarioHns : ArchiveOptions := { oScenario with hnsEnabled := true }

/-- The scenario with a `"."` segment in the object name. -/
def oDotSeg : ArchiveOptions :=
  { oScenario with blobName := "a/./b".data, sourcePath := "/mnt/fs/a/./b".data }

/-- Directory step whose ACL pre-fetch reports `BlobNotFound`. -/
def dirNF : DirEnv := { dirOk with aclResult := FetchResult.notFound }

/-- Environment whose every directory ACL pre-fetch reports not-found. -/
def envNF : ArchiveEnv := { dirs := fun _ => dirNF, file := fileOk }

/-- File phase whose post-upload `SetAccessControl` fails. -/
def fileNoSetAcl : FileEnv := { fileOk with setAclOk := false }

/-- Environment for the failed ACL re-application run. -/
def envNoSetAcl : ArchiveEnv := { dirs := fun _ => dirOk, file := fileNoSetAcl }

/-- Directory step whose `os.Open` fails. -/
def dirNoOpen : DirEnv := { dirOk with openOk := false }

/-- Environment whose directory replication fails at the first open. -/
def envDirFail : ArchiveEnv := { dirs := fun _ => dirNoOpen, file := fileOk }

/-- File phase whose `os.Open` of the source fails. -/
def fileNoOpen : FileEnv := { fileOk with openOk := false }

/-- Environment with an unreadable source file. -/
def envFileNoOpen : ArchiveEnv := { dirs := fun _ => dirOk, file := fileNoOpen }

/-! ### Claim theorems -/

/-- C1: the claim says every object key produced by `Archive` is the
path-join of container, export prefix and object name, matching the key
`Remove` deletes.  The code violates this: `Archive` never reads
`ExportPrefix`, so in the spec scenario it uploads to `cont/a`,
`cont/a/b` and `cont/a/b/file.txt` (no `export1/` component), while
`Remove` with the same configuration deletes
`cont/export1/a/b/file.txt` — a key `Archive` never wrote. -/
theorem C1_archive_remove_key_mismatch :
    uploadPaths (Archive oScenario envOk).1 =
      ["/cont/a".data, "/cont/a/b".data, "/cont/a/b/file.txt".data] ∧
    (Remove rScenario none).1 =
      [Event.deleteBlob "/cont/export1/a/b/file.txt".data
        DeleteSnapshotsOption.optInclude] ∧
    "/cont/export1/a/b/file.txt".data ∉
      uploadPaths (Archive oScenario envOk).1 := by
  refine ⟨by decide, by decide, by decide⟩

/-- C2: the claim says a "not found" ACL pre-fetch response is not an
error and the placeholder is still created.  The code violates this:
its guard `err != nil || ok && stgErr.ServiceCode() == BlobNotFound` is
true for every non-nil error, `BlobNotFound` included, so the archive
aborts with `(0, err)` and uploads no placeholder. -/
theorem C2_notFound_aborts :
    (Archive oScenarioHns envNF).2 = Outcome.ret 0 (some (Err.dirAcl true)) ∧
    (Archive oScenarioHns envNF).1 = [Event.dirGetAcl "/cont/a".data] := by
  refine ⟨by decide, by decide⟩

/-- C3: the claim says a failed post-upload `SetAccessControl` is only
logged and `Archive` returns `(total, nil)`.  The code violates this:
the shared `err` variable makes the final `return total, err` carry the
`SetAccessControl` error, so `Archive` returns the byte count with a
non-nil error. -/
theorem C3_setAcl_error_returned :
    Event.fileUpload "/cont/a/b/file.txt".data (fourMeta stFix) ∈
      (Archive oScenarioHns envNoSetAcl).1 ∧
    (Archive oScenarioHns envNoSetAcl).2 =
      Outcome.ret 5 (some Err.fileSetAcl) ∧
    (Archive oScenarioHns envNoSetAcl).2 ≠ Outcome.ret 5 none := by
  refine ⟨by decide, by decide, by decide⟩

/-- C4 (counterexample): for the object name `a/./b` (two separators)
the replicator issues two placeholder uploads, but `path.Join` cleans
the `"."` segment away, so both uploads target `cont/a` and the store
path of upload 1 is not a strict prefix of that of upload 2. -/
theorem C4_counterexample :
    dirUploadPaths (Archive oDotSeg envOk).1 =
      ["/cont/a".data, "/cont/a".data] ∧
    ¬ List.Chain' (fun x y => x <+: y ∧ x ≠ y)
      (dirUploadPaths (Archive oDotSeg envOk).1) := by
  constructor
  · decide
  · intro hchain
    rw [(by decide : dirUploadPaths (Archive oDotSeg envOk).1 =
      ["/cont/a".data, "/cont/a".data])] at hchain
    exact (List.chain'_cons.mp hchain).1.2 rfl

/-- C4 (amended): when every directory-replication call succeeds, the
replicator issues exactly `k` placeholder uploads for an object name
with `k` separators (zero uploads when there is no separator), and if
additionally every separator-delimited segment of the name is nonempty
and neither `"."` nor `".."`, the store path of each upload is a strict
prefix of the next. -/
theorem C4_dir_replicator (o : ArchiveOptions) (env : ArchiveEnv)
    (hok : ∀ j, j < (archiveParents o).length → (env.dirs j).allOk) :
    (dirUploadPaths (Archive o env).1).length = o.blobName.count '/' ∧
    (o.blobName.count '/' = 0 → dirUploadPaths (Archive o env).1 = []) ∧
    ((∀ s ∈ splitSlash o.blobName, NormalSeg s) →
      List.Chain' (fun x y => x <+: y ∧ x ≠ y)
        (dirUploadPaths (Archive o env).1)) := by
  have hok0 : ∀ j, j < (archiveParents o).length → (env.dirs (0 + j)).allOk := by
    intro j hj
    rw [Nat.zero_add]
    exact hok j hj
  obtain ⟨h1, h2⟩ := archiveDirs_ok 0 (archiveBasePath o) hok0
  have hpaths : dirUploadPaths (Archive o env).1 =
      dirPaths (archiveBasePath o) (archiveParents o) := by
    rw [Archive_dirOk h2]
    simp only [dirUploadPaths, List.filterMap_append]
    simp only [dirUploadPaths] at h1
    rw [h1]
    have hf := dirUploadPaths_archiveFile o.hnsEnabled env.file
      (archiveBlobPath o) (archiveDfsPath o)
    simp only [dirUploadPaths] at hf
    rw [hf, List.append_nil]
  have hplen : (archiveParents o).length = o.blobName.count '/' := by
    rw [archiveParents, List.length_dropLast, length_splitSlash]
    omega
  refine ⟨?_, ?_, ?_⟩
  · rw [hpaths, dirPaths_length, hplen]
  · intro hc
    have hnm : '/' ∉ o.blobName := List.count_eq_zero.mp hc
    have hpar : archiveParents o = [] := by
      rw [archiveParents, splitSlash_of_not_mem hnm]
      rfl
    rw [hpaths, hpar]
    rfl
  · intro hnorm
    rw [hpaths]
    have hnp : ∀ s ∈ archiveParents o, NormalSeg s := by
      intro s hs
      exact hnorm s ((List.dropLast_sublist _).subset hs)
    exact chain_dirPaths hnp

/-- C4 witness: the spec scenario issues two uploads in strict-prefix
order. -/
theorem C4_dir_replicator_witness :
    (dirUploadPaths (Archive oScenario envOk).1).length =
      oScenario.blobName.count '/' ∧
    List.Chain' (fun x y => x <+: y ∧ x ≠ y)
      (dirUploadPaths (Archive oScenario envOk).1) :=
  ⟨(C4_dir_replicator oScenario envOk (by decide)).1,
    (C4_dir_replicator oScenario envOk (by decide)).2.2 (by decide)⟩

/-- C5: any directory-replication failure makes `Archive` return
`(0, err)` at once, and no file-content upload is ever issued. -/
theorem C5_dir_failure_aborts (o : ArchiveOptions) (env : ArchiveEnv) (e : Err)
    (hd : (archiveDirs o.hnsEnabled env.dirs 0 (archiveBasePath o)
      (archiveParents o)).2 = some e) :
    (Archive o env).2 = Outcome.ret 0 (some e) ∧
    ∀ p m, Event.fileUpload p m ∉ (Archive o env).1 := by
  have harch := Archive_dirErr hd
  constructor
  · rw [harch]
  · intro p m
    rw [harch]
    exact archiveDirs_no_fileUpload

/-- C5 witness: a failing `os.Open` on the first ancestor aborts the
scenario archive with `(0, err)`. -/
theorem C5_dir_failure_aborts_witness :
    (Archive oScenario envDirFail).2 = Outcome.ret 0 (some Err.dirOpen) :=
  (C5_dir_failure_aborts oScenario envDirFail Err.dirOpen (by decide)).1

/-- C6: in flat mode the file object's metadata is exactly the four
pairs `Permissions`/`ModTime`/`Owner`/`Group` built from the source
file's stat fields; in hierarchical-namespace mode directory
placeholders carry only `hdi_isfolder`, none of the four keys. -/
theorem C6_metadata (o : ArchiveOptions) (env : ArchiveEnv) :
    (o.hnsEnabled = false →
      ∀ p m, Event.fileUpload p m ∈ (Archive o env).1 →
        m = [("Permissions", octalStr env.file.stat.mode),
             ("ModTime", env.file.stat.modTime),
             ("Owner", toString env.file.stat.uid),
             ("Group", toString env.file.stat.gid)] ∧
        m.map Prod.fst = ["Permissions", "ModTime", "Owner", "Group"]) ∧
    (o.hnsEnabled = true →
      ∀ p m, Event.dirUpload p m ∈ (Archive o env).1 →
        m = [("hdi_isfolder", "true")]) := by
  constructor
  · intro _ p m hm
    have hmf : m = fourMeta env.file.stat := by
      cases hd : (archiveDirs o.hnsEnabled env.dirs 0 (archiveBasePath o)
          (archiveParents o)).2 with
      | some e =>
        rw [Archive_dirErr hd] at hm
        exact absurd hm archiveDirs_no_fileUpload
      | none =>
        rw [Archive_dirOk hd] at hm
        rcases List.mem_append.mp hm with h1 | h1
        · exact absurd h1 archiveDirs_no_fileUpload
        · exact archiveFile_fileUpload_meta h1
    rw [hmf]
    exact ⟨rfl, rfl⟩
  · intro hh p m hm
    cases hd : (archiveDirs o.hnsEnabled env.dirs 0 (archiveBasePath o)
        (archiveParents o)).2 with
    | some e =>
      rw [Archive_dirErr hd] at hm
      obtain ⟨j, hj⟩ := archiveDirs_dirUpload_meta hm
      rw [hh, dirMeta_true] at hj
      exact hj
    | none =>
      rw [Archive_dirOk hd] at hm
      rcases List.mem_append.mp hm with h1 | h1
      · obtain ⟨j, hj⟩ := archiveDirs_dirUpload_meta h1
        rw [hh, dirMeta_true] at hj
        exact hj
      · exact absurd h1 archiveFile_no_dirUpload

/-- C6 witness: the scenario's file upload carries exactly the four
pairs built from the fixture stat record. -/
theorem C6_metadata_witness :
    fourMeta stFix =
      [("Permissions", octalStr stFix.mode), ("ModTime", stFix.modTime),
       ("Owner", toString stFix.uid), ("Group", toString stFix.gid)] ∧
    (fourMeta stFix).map Prod.fst =
      ["Permissions", "ModTime", "Owner", "Group"] :=
  (C6_metadata oScenario envOk).1 rfl (archiveBlobPath oScenario)
    (fourMeta stFix) (by decide)

/-- C7: `Remove` issues exactly one delete, against the flat-namespace
path of the joined key, with snapshot inclusion requested, returns
exactly the delete call's error, and performs no other store call. -/
theorem C7_remove_single_delete (o : RemoveOptions) (de : Option Err) :
    (Remove o de).1 =
      [Event.deleteBlob ('/' :: removeBlobPath o)
        DeleteSnapshotsOption.optInclude] ∧
    (Remove o de).1.length = 1 ∧
    (Remove o de).2 = de ∧
    ((Remove o de).2 = none ↔ de = none) :=
  ⟨rfl, rfl, rfl, Iff.rfl⟩

/-- C8: the `path.Join` used by `Remove` to build the object key is
idempotent: re-joining the joined key reproduces it. -/
theorem C8_pathJoin_idempotent (c p n : List Char) :
    pathJoin [pathJoin [c, p, n]] = pathJoin [c, p, n] := by
  cases hdw : [c, p, n].dropWhile (· = []) with
  | nil =>
    have h1 : pathJoin [c, p, n] = [] := by
      unfold pathJoin
      rw [hdw]
    rw [h1]
    rfl
  | cons x xs =>
    have h1 : pathJoin [c, p, n] = pathClean (joinSlash (x :: xs)) := by
      unfold pathJoin
      rw [hdw]
    rw [h1, pathJoin_single (pathClean_ne_nil _), pathClean_fix]

/-- C9: the Mover identity accessors return exactly the construction
values; the `Mover` of the noop plugin has no method writing either
field, and the constructed noop mover carries `"noop"` and the
truncated archive id. -/
theorem C9_mover_identity (fs : String) (n : Nat) :
    Mover.FsName { fsName := fs, archiveID := n } = fs ∧
    Mover.ArchiveID { fsName := fs, archiveID := n } = n ∧
    (noopMover n).FsName = "noop" ∧
    (noopMover n).ArchiveID = n % 2 ^ 32 :=
  ⟨rfl, rfl, rfl, rfl⟩

/-- C10: when the source file cannot be opened or statted, the
discarded errors leave a nil `FileInfo` and `Archive`'s file phase
dereferences it (`fileInfo.Size()`): the run panics instead of
returning an error. -/
theorem C10_nil_stat_panics (o : ArchiveOptions) (env : ArchiveEnv)
    (hf : env.file.openOk = false ∨ env.file.statOk = false)
    (hd : (archiveDirs o.hnsEnabled env.dirs 0 (archiveBasePath o)
      (archiveParents o)).2 = none) :
    (Archive o env).2 = Outcome.panicked := by
  rw [Archive_dirOk hd, archiveFile_panicked hf]

/-- C10 witness: the scenario with an unreadable source file panics. -/
theorem C10_nil_stat_panics_witness :
    (Archive oScenario envFileNoOpen).2 = Outcome.panicked :=
  C10_nil_stat_panics oScenario envFileNoOpen (Or.inl rfl) (by decide)

end Lemur
